import Mathlib

/-!
Shallow embedding of the Huffman-table construction from `src/lib.rs`
(crate `huffman-rs`).

Conventions of the embedding:
* Rust `usize` values (weights, codes, bit counts) are modelled as `Nat`;
  the claims under study are about logical behaviour far below any
  overflow boundary.
* `HashMap<char, usize>` is modelled as an association list
  `List (Char × Nat)`; its iteration order is unspecified in Rust, so
  theorems quantify over the entry list.
* `BinaryHeap<Reverse<HuffTree>>` is modelled as a `List HuffTree`
  together with `popMin`, which extracts a minimum with respect to the
  `Ord` implementation `HuffTree.cmp` translated from `impl Ord for
  HuffTree` (the `Reverse` wrapper turns the max-heap `pop` into an
  extract-min).  Among `cmp`-equal elements the heap's choice is
  unspecified; `popMin` resolves such ties to the leftmost element, one
  admissible resolution.
* A Rust panic (`.expect(..)`) is modelled as `Option.none`; functions
  that can panic return `Option`.
-/

namespace HuffmanRs

/-- `enum HuffNode` from the source: a leaf holding a character and its
weight, or an internal node holding a total weight and two owned
children. -/
inductive HuffNode where
  | Leaf (element : Char) (weight : Nat)
  | Internal (weight : Nat) (left : HuffNode) (right : HuffNode)
  deriving Repr, DecidableEq

/-- Weight of a node, as computed by the two inline `match` expressions
in `HuffTree::new_internal` and by `HuffTree::weight`. -/
def HuffNode.nodeWeight : HuffNode → Nat
  | .Internal weight _ _ => weight
  | .Leaf _ weight => weight

/-- Whether the node is the `Leaf` variant. -/
def HuffNode.isLeaf : HuffNode → Bool
  | .Leaf _ _ => true
  | .Internal _ _ _ => false

/-- `struct HuffTree { root: Box<HuffNode> }` from the source. -/
structure HuffTree where
  root : HuffNode
  deriving Repr, DecidableEq

/-- `HuffTree::new_leaf`. -/
def HuffTree.new_leaf (element : Char) (weight : Nat) : HuffTree :=
  ⟨HuffNode.Leaf element weight⟩

/-- `HuffTree::new_internal`: the total weight is the sum of the two
argument weights, and the children are swapped so that the one with the
smaller weight (the first argument on a tie, since the test is `<=`)
ends up on the left. -/
def HuffTree.new_internal (left right : HuffNode) : HuffTree :=
  let left_weight :=
    match left with
    | HuffNode.Internal weight _ _ => weight
    | HuffNode.Leaf _ weight => weight
  let right_weight :=
    match right with
    | HuffNode.Internal weight _ _ => weight
    | HuffNode.Leaf _ weight => weight
  let total_weight := left_weight + right_weight
  let p := if left_weight ≤ right_weight then (left, right) else (right, left)
  ⟨HuffNode.Internal total_weight p.1 p.2⟩

/-- `HuffTree::weight`. -/
def HuffTree.weight (t : HuffTree) : Nat :=
  match t.root with
  | HuffNode.Internal weight _ _ => weight
  | HuffNode.Leaf _ weight => weight

/-- `impl Ord for HuffTree`: compare by weight first and, on equal
weights, put a `Leaf` strictly before an `Internal` node. -/
def HuffTree.cmp (a b : HuffTree) : Ordering :=
  (compare a.weight b.weight).then
    (match a.root, b.root with
     | HuffNode.Leaf _ _, HuffNode.Internal _ _ _ => Ordering.lt
     | HuffNode.Internal _ _ _, HuffNode.Leaf _ _ => Ordering.gt
     | _, _ => Ordering.eq)

/-- Rank of the root variant used by the tie-break in `HuffTree.cmp`:
a `Leaf` ranks below an `Internal` node. -/
def HuffTree.kindRank (t : HuffTree) : Nat :=
  match t.root with
  | HuffNode.Leaf _ _ => 0
  | HuffNode.Internal _ _ _ => 1

theorem HuffTree.cmp_eq_compare_key (a b : HuffTree) :
    HuffTree.cmp a b =
      (compare a.weight b.weight).then (compare a.kindRank b.kindRank) := by
  unfold HuffTree.cmp HuffTree.kindRank
  cases a.root <;> cases b.root <;> rfl

theorem HuffTree.cmp_eq_gt_iff (a b : HuffTree) :
    HuffTree.cmp a b = Ordering.gt ↔
      b.weight < a.weight ∨ (a.weight = b.weight ∧ b.kindRank < a.kindRank) := by
  simp [HuffTree.cmp_eq_compare_key, Ordering.then_eq_gt,
    Nat.compare_eq_gt, Nat.compare_eq_eq]

theorem cmp_self_ne_gt (a : HuffTree) : HuffTree.cmp a a ≠ Ordering.gt := by
  intro h
  rw [HuffTree.cmp_eq_gt_iff] at h
  omega

theorem cmp_gt_asymm (a b : HuffTree) (h : HuffTree.cmp a b = Ordering.gt) :
    HuffTree.cmp b a ≠ Ordering.gt := by
  intro h2
  rw [HuffTree.cmp_eq_gt_iff] at h h2
  omega

theorem cmp_ne_gt_trans (a b c : HuffTree)
    (h1 : HuffTree.cmp a b ≠ Ordering.gt) (h2 : HuffTree.cmp b c ≠ Ordering.gt) :
    HuffTree.cmp a c ≠ Ordering.gt := by
  intro h3
  rw [HuffTree.cmp_eq_gt_iff] at h3
  rw [Ne, HuffTree.cmp_eq_gt_iff] at h1 h2
  omega

/-- Selection of the minimum among `x :: xs`: returns the extracted
element and the remaining queue. -/
def popMinAux (x : HuffTree) : List HuffTree → HuffTree × List HuffTree
  | [] => (x, [])
  | y :: ys =>
    let p := popMinAux y ys
    if HuffTree.cmp x p.1 = Ordering.gt then (p.1, x :: p.2) else (x, y :: ys)

/-- Extract-min on the queue: models `BinaryHeap<Reverse<HuffTree>>::pop`
through its documented contract (the heap yields a greatest element of
the `Reverse`-wrapped order, i.e. a `HuffTree.cmp`-minimal element);
among `cmp`-equal elements the leftmost is taken, one admissible
resolution of the heap's unspecified tie order.  Returns the extracted
element together with the remaining queue, or `none` on an empty
queue. -/
def popMin : List HuffTree → Option (HuffTree × List HuffTree)
  | [] => none
  | x :: xs => some (popMinAux x xs)

theorem popMin_eq_none_iff (q : List HuffTree) : popMin q = none ↔ q = [] := by
  cases q <;> simp [popMin]

theorem popMinAux_perm (x : HuffTree) (xs : List HuffTree) :
    (x :: xs).Perm ((popMinAux x xs).1 :: (popMinAux x xs).2) := by
  induction xs generalizing x with
  | nil => simp [popMinAux]
  | cons y ys ih =>
    by_cases hc : HuffTree.cmp x (popMinAux y ys).1 = Ordering.gt
    · simp only [popMinAux, hc, if_pos]
      exact ((ih y).cons x).trans (List.Perm.swap _ _ _)
    · simp [popMinAux, hc]

theorem popMinAux_min (x : HuffTree) (xs : List HuffTree) :
    ∀ z ∈ x :: xs, HuffTree.cmp (popMinAux x xs).1 z ≠ Ordering.gt := by
  induction xs generalizing x with
  | nil =>
    intro z hz
    simp at hz
    subst hz
    simp only [popMinAux]
    exact cmp_self_ne_gt z
  | cons y ys ih =>
    intro z hz
    by_cases hc : HuffTree.cmp x (popMinAux y ys).1 = Ordering.gt
    · simp only [popMinAux, hc, if_pos]
      rcases List.mem_cons.mp hz with hz | hz
      · subst hz
        exact cmp_gt_asymm z _ hc
      · exact ih y z hz
    · simp only [popMinAux, hc, if_neg, not_false_iff]
      rcases List.mem_cons.mp hz with hz | hz
      · subst hz
        exact cmp_self_ne_gt z
      · exact cmp_ne_gt_trans x _ z hc (ih y z hz)

/-- The extracted element together with the remaining queue is a
permutation of the original queue. -/
theorem popMin_perm (q : List HuffTree) (m : HuffTree) (rest : List HuffTree)
    (h : popMin q = some (m, rest)) : q.Perm (m :: rest) := by
  cases q with
  | nil => simp [popMin] at h
  | cons x xs =>
    simp only [popMin, Option.some_inj] at h
    have := popMinAux_perm x xs
    rw [h] at this
    exact this

/-- The extracted element is `cmp`-minimal over the whole queue. -/
theorem popMin_min (q : List HuffTree) (m : HuffTree) (rest : List HuffTree)
    (h : popMin q = some (m, rest)) :
    ∀ x ∈ q, HuffTree.cmp m x ≠ Ordering.gt := by
  cases q with
  | nil => simp [popMin] at h
  | cons x xs =>
    simp only [popMin, Option.some_inj] at h
    intro z hz
    have := popMinAux_min x xs z hz
    rw [h] at this
    exact this

theorem popMin_weight_le (q : List HuffTree) (m : HuffTree) (rest : List HuffTree)
    (h : popMin q = some (m, rest)) : ∀ x ∈ q, m.weight ≤ x.weight := by
  intro x hx
  have := popMin_min q m rest h x hx
  rw [Ne, HuffTree.cmp_eq_gt_iff] at this
  omega

/-- `generate_char_table`: fold over the characters of the input,
incrementing a per-character counter (`*acc.entry(char).or_insert(0) += 1`).
The `HashMap` is modelled as an association list; first-occurrence order
is one admissible enumeration of the map. -/
def generate_char_table (contents : List Char) : List (Char × Nat) :=
  contents.foldl
    (fun acc char =>
      if acc.any (fun e => e.1 = char) then
        acc.map (fun e => if e.1 = char then (e.1, e.2 + 1) else e)
      else
        acc ++ [(char, 1)])
    []

/-- `build_priority_queue`: one `Reverse(HuffTree::new_leaf(k, v))` per
map entry; the heap is modelled as the list of those leaf trees. -/
def build_priority_queue (char_table : List (Char × Nat)) : List HuffTree :=
  char_table.map (fun e => HuffTree.new_leaf e.1 e.2)

/-- One iteration of the `while queue.len() > 1` loop in
`build_huff_tree`: pop the two minima, combine them with
`HuffTree::new_internal`, and push the result.  Returns `none` when the
loop guard fails (the two inner `.expect` panics are unreachable for a
queue of more than one element, see `merge_step_eq_none_iff`). -/
def merge_step (queue : List HuffTree) : Option (List HuffTree) :=
  if queue.length > 1 then
    (popMin queue).bind fun p1 =>
      (popMin p1.2).bind fun p2 =>
        some (HuffTree.new_internal p1.1.root p2.1.root :: p2.2)
  else none

theorem merge_step_eq_some_iff (queue q2 : List HuffTree) :
    merge_step queue = some q2 ↔
      queue.length > 1 ∧
        ∃ tmp1 rest1 tmp2 rest2,
          popMin queue = some (tmp1, rest1) ∧ popMin rest1 = some (tmp2, rest2) ∧
            q2 = HuffTree.new_internal tmp1.root tmp2.root :: rest2 := by
  rw [merge_step]
  by_cases hlen : queue.length > 1
  · rw [if_pos hlen]
    simp only [Option.bind_eq_some, Option.some_inj, hlen, true_and]
    constructor
    · rintro ⟨⟨tmp1, rest1⟩, h1, ⟨tmp2, rest2⟩, h2, h3⟩
      exact ⟨tmp1, rest1, tmp2, rest2, h1, h2, h3.symm⟩
    · rintro ⟨tmp1, rest1, tmp2, rest2, h1, h2, h3⟩
      exact ⟨⟨tmp1, rest1⟩, h1, ⟨tmp2, rest2⟩, h2, h3.symm⟩
  · rw [if_neg hlen]
    constructor
    · intro h
      exact absurd h (by simp)
    · rintro ⟨h1, _⟩
      exact absurd h1 hlen

theorem merge_step_eq_none_iff (queue : List HuffTree) :
    merge_step queue = none ↔ queue.length ≤ 1 := by
  constructor
  · intro h
    by_contra hlen
    have h1 : queue.length > 1 := by omega
    obtain ⟨x, xs, rfl⟩ : ∃ x xs, queue = x :: xs := by
      cases queue with
      | nil => simp at h1
      | cons x xs => exact ⟨x, xs, rfl⟩
    rw [merge_step, if_pos h1] at h
    have hpop : popMin (x :: xs) = some (popMinAux x xs) := rfl
    rw [hpop] at h
    simp only [Option.some_bind] at h
    have hr1 : (popMinAux x xs).2.length = xs.length := by
      have hp := (popMinAux_perm x xs).length_eq
      simp at hp
      omega
    cases hrest : (popMinAux x xs).2 with
    | nil =>
      rw [hrest] at hr1
      simp at hr1 h1
      omega
    | cons y ys =>
      rw [hrest] at h
      have : popMin (y :: ys) = some (popMinAux y ys) := rfl
      rw [this] at h
      simp at h
  · intro h
    rw [merge_step, if_neg (by omega)]

theorem merge_step_length (queue q2 : List HuffTree)
    (h : merge_step queue = some q2) : q2.length + 1 = queue.length := by
  rw [merge_step_eq_some_iff] at h
  obtain ⟨hlen, tmp1, rest1, tmp2, rest2, h1, h2, h3⟩ := h
  have l1 := (popMin_perm _ _ _ h1).length_eq
  have l2 := (popMin_perm _ _ _ h2).length_eq
  subst h3
  simp at l1 l2 ⊢
  omega

/-- The body of `build_huff_tree`, made structurally recursive on a fuel
argument; `build_huff_tree` supplies `queue.length` as fuel, which
dominates the number of loop iterations (each iteration shrinks the
queue by one). -/
def build_loop : Nat → List HuffTree → Option HuffTree
  | 0, queue => (popMin queue).map Prod.fst
  | fuel + 1, queue =>
    match merge_step queue with
    | some q2 => build_loop fuel q2
    | none => (popMin queue).map Prod.fst

/-- `build_huff_tree`: merge the two smallest queue entries until one
tree remains, then pop it.  The source returns `Reverse<HuffTree>` and
has no empty case: on an empty queue the final
`queue.pop().expect("better error handling")` panics, which this model
renders as `none`. -/
def build_huff_tree (queue : List HuffTree) : Option HuffTree :=
  build_loop queue.length queue

/-- Number of iterations the `while queue.len() > 1` loop performs,
counted with the same fuel discipline as `build_loop`. -/
def merge_count_loop : Nat → List HuffTree → Nat
  | 0, _ => 0
  | fuel + 1, queue =>
    match merge_step queue with
    | some q2 => merge_count_loop fuel q2 + 1
    | none => 0

/-- Number of merges performed by `build_huff_tree` on `queue`. -/
def merge_count (queue : List HuffTree) : Nat :=
  merge_count_loop queue.length queue

/-- `struct HuffTableRow { char, frequency, code, bits }`. -/
structure HuffTableRow where
  char : Char
  frequency : Nat
  code : Nat
  bits : Nat
  deriving Repr, DecidableEq

/-- `struct HuffTable { rows: Vec<HuffTableRow> }`. -/
structure HuffTable where
  rows : List HuffTableRow
  deriving Repr, DecidableEq

/-- `HuffTable::new`. -/
def HuffTable.new : HuffTable := ⟨[]⟩

/-- `HuffTable::add_row`: `Vec::push` appends at the end. -/
def HuffTable.add_row (t : HuffTable) (char : Char) (frequency code bits : Nat) :
    HuffTable :=
  ⟨t.rows ++ [⟨char, frequency, code, bits⟩]⟩

/-- `HuffTable::traverse_tree`: the `&mut Self` table parameter is
threaded through as explicit state; a leaf appends one row with the
accumulated code and bit count, an internal node first traverses the
left child with `code << 1` and then the right child with
`(code << 1) | 1`, both at `bits + 1`. -/
def HuffTable.traverse_tree (node : HuffNode) (code bits : Nat) (table : HuffTable) :
    HuffTable :=
  match node with
  | HuffNode.Leaf element weight => table.add_row element weight code bits
  | HuffNode.Internal _ left right =>
    let table := HuffTable.traverse_tree left (code <<< 1) (bits + 1) table
    HuffTable.traverse_tree right ((code <<< 1) ||| 1) (bits + 1) table

/-- `HuffTable::from_huff_tree`: start from an empty table at the tree
root with `code = 0`, `bits = 0` (the `Reverse` wrapper around the tree
is unwrapped by `.0` in the source). -/
def HuffTable.from_huff_tree (huff_tree : HuffTree) : HuffTable :=
  HuffTable.traverse_tree huff_tree.root 0 0 HuffTable.new

/-- Modelled from the spec (§4.4 CodeAssigner): the reference pre-order
code assignment.  Descending left doubles the pattern, descending right
doubles it and adds one, each step increases the depth by one, and a
leaf emits exactly one row with the current pattern and depth. -/
def specAssignCodes : HuffNode → Nat → Nat → List HuffTableRow
  | HuffNode.Leaf element weight, pattern, depth => [⟨element, weight, pattern, depth⟩]
  | HuffNode.Internal _ left right, pattern, depth =>
    specAssignCodes left (pattern * 2) (depth + 1) ++
      specAssignCodes right (pattern * 2 + 1) (depth + 1)

theorem shiftLeft_one_eq (code : Nat) : code <<< 1 = code * 2 := by
  rw [Nat.shiftLeft_eq, pow_one]

theorem shiftLeft_one_or_one_eq (code : Nat) : (code <<< 1) ||| 1 = code * 2 + 1 := by
  rw [shiftLeft_one_eq]
  apply Nat.eq_of_testBit_eq
  intro i
  cases i with
  | zero =>
    have h0 : code * 2 % 2 = 0 := by omega
    have h1 : (code * 2 + 1) % 2 = 1 := by omega
    simp [Nat.testBit_or, h0, h1]
  | succ j =>
    rw [Nat.testBit_or]
    simp only [Nat.testBit_add_one]
    have h1 : code * 2 / 2 = code := by omega
    have h2 : (code * 2 + 1) / 2 = code := by omega
    have h3 : (1 : Nat) / 2 = 0 := by norm_num
    rw [h1, h2, h3]
    simp [Nat.zero_testBit]

/-- The emitted rows of `traverse_tree` are its input rows followed by
the reference assignment for the subtree. -/
theorem traverse_tree_rows (node : HuffNode) (code bits : Nat) (table : HuffTable) :
    HuffTable.traverse_tree node code bits table =
      ⟨table.rows ++ specAssignCodes node code bits⟩ := by
  induction node generalizing code bits table with
  | Leaf element weight =>
    simp [HuffTable.traverse_tree, HuffTable.add_row, specAssignCodes]
  | Internal w left right ihl ihr =>
    simp only [HuffTable.traverse_tree, specAssignCodes]
    rw [ihl, ihr, shiftLeft_one_or_one_eq, shiftLeft_one_eq]
    simp

/-- `impl Display for HuffTableRow`: `write!(f, "{}, {}, {}, {}", ...)`
renders the symbol, frequency, code and bit count separated by
commas. -/
def HuffTableRow.render (r : HuffTableRow) : String :=
  r.char.toString ++ ", " ++ toString r.frequency ++ ", " ++ toString r.code
    ++ ", " ++ toString r.bits

/-- `impl Display for HuffTable`: the formatter is modelled as the
string written so far.  The source evaluates
`let _ = self.rows.iter().map(|value| write!(f, ..));` — `map` produces
a lazy iterator holding one pending write per row, and the iterator is
discarded without ever being consumed, so none of the writes runs and
the function returns `Ok(())` with the formatter untouched. -/
def HuffTable.fmt (table : HuffTable) (f : String) : String :=
  let _pending := table.rows.map (fun value => fun s => s ++ value.render)
  f

/-- Modelled from the spec (§4.5 CodeTable): the claimed textual
rendering, one `symbol, frequency, code, bits` entry per row in table
order. -/
def specTableRendering (table : HuffTable) : String :=
  String.join (table.rows.map (fun value => value.render))

/-- The weight bookkeeping invariant of the spec (§3 Data model): every
`Internal` node's weight equals the sum of its children's weights,
recursively. -/
def HuffNode.consistent : HuffNode → Bool
  | HuffNode.Leaf _ _ => true
  | HuffNode.Internal weight left right =>
    (weight == left.nodeWeight + right.nodeWeight) && left.consistent
      && right.consistent

theorem nodeWeight_eq_weight (t : HuffTree) : t.root.nodeWeight = t.weight := by
  cases h : t.root <;> simp [HuffNode.nodeWeight, HuffTree.weight, h]

/-- Unfolding of `HuffTree.new_internal` in terms of the argument
weights: the total is the sum, and the smaller-weight child (the first
argument on a tie) goes left. -/
theorem new_internal_eq (left right : HuffNode) :
    HuffTree.new_internal left right =
      ⟨HuffNode.Internal (left.nodeWeight + right.nodeWeight)
        (if left.nodeWeight ≤ right.nodeWeight then left else right)
        (if left.nodeWeight ≤ right.nodeWeight then right else left)⟩ := by
  unfold HuffTree.new_internal
  cases left <;> cases right <;>
    simp only [HuffNode.nodeWeight] <;>
    split <;> rename_i h <;> simp [h]

theorem new_internal_weight (left right : HuffNode) :
    (HuffTree.new_internal left right).weight =
      left.nodeWeight + right.nodeWeight := by
  rw [new_internal_eq, HuffTree.weight]

theorem new_internal_consistent (left right : HuffNode)
    (hl : left.consistent = true) (hr : right.consistent = true) :
    (HuffTree.new_internal left right).root.consistent = true := by
  rw [new_internal_eq]
  by_cases h : left.nodeWeight ≤ right.nodeWeight <;>
    simp [HuffNode.consistent, h, hl, hr, Nat.add_comm]

/-- Main loop invariant: on a non-empty queue of weight-consistent
trees, with enough fuel, the loop succeeds and returns a
weight-consistent tree whose weight is the total queue weight. -/
theorem build_loop_spec (fuel : Nat) :
    ∀ q : List HuffTree, q.length ≤ fuel + 1 → q ≠ [] →
      (∀ x ∈ q, x.root.consistent = true) →
      ∃ t, build_loop fuel q = some t ∧ t.root.consistent = true ∧
        t.weight = (q.map HuffTree.weight).sum := by
  induction fuel with
  | zero =>
    intro q hlen hne hcons
    obtain ⟨x, xs, rfl⟩ := List.exists_cons_of_ne_nil hne
    have hxs : xs = [] := by
      cases xs with
      | nil => rfl
      | cons y ys => simp at hlen
    subst hxs
    refine ⟨x, rfl, hcons x (by simp), ?_⟩
    simp
  | succ fuel ih =>
    intro q hlen hne hcons
    cases hstep : merge_step q with
    | none =>
      have h1 : q.length ≤ 1 := (merge_step_eq_none_iff q).mp hstep
      obtain ⟨x, xs, rfl⟩ := List.exists_cons_of_ne_nil hne
      have hxs : xs = [] := by
        cases xs with
        | nil => rfl
        | cons y ys => simp at h1
      subst hxs
      refine ⟨x, ?_, hcons x (by simp), by simp⟩
      show build_loop (fuel + 1) [x] = some x
      simp only [build_loop, hstep]
      rfl
    | some q2 =>
      have hsome := (merge_step_eq_some_iff q q2).mp hstep
      obtain ⟨hq1, tmp1, rest1, tmp2, rest2, h1, h2, rfl⟩ := hsome
      have perm1 := popMin_perm _ _ _ h1
      have perm2 := popMin_perm _ _ _ h2
      have hmem1 : tmp1 ∈ q := perm1.mem_iff.mpr (by simp)
      have hmem_rest1 : ∀ x ∈ rest1, x ∈ q := by
        intro x hx
        exact perm1.mem_iff.mpr (by simp [hx])
      have hmem2 : tmp2 ∈ q := hmem_rest1 _ (perm2.mem_iff.mpr (by simp))
      have hmem_rest2 : ∀ x ∈ rest2, x ∈ q := by
        intro x hx
        exact hmem_rest1 _ (perm2.mem_iff.mpr (by simp [hx]))
      have hcons2 :
          ∀ x ∈ HuffTree.new_internal tmp1.root tmp2.root :: rest2,
            x.root.consistent = true := by
        intro x hx
        rcases List.mem_cons.mp hx with hx | hx
        · subst hx
          exact new_internal_consistent _ _ (hcons _ hmem1) (hcons _ hmem2)
        · exact hcons _ (hmem_rest2 _ hx)
      have hlen2 := merge_step_length q _ hstep
      obtain ⟨t, hbuild, hc, hw⟩ :=
        ih (HuffTree.new_internal tmp1.root tmp2.root :: rest2)
          (by omega) (by simp) hcons2
      refine ⟨t, ?_, hc, ?_⟩
      · have heq :
            build_loop (fuel + 1) q =
              build_loop fuel (HuffTree.new_internal tmp1.root tmp2.root :: rest2) := by
          simp only [build_loop, hstep]
        rw [heq]
        exact hbuild
      · rw [hw]
        have e1 : (HuffTree.new_internal tmp1.root tmp2.root).weight =
            tmp1.weight + tmp2.weight := by
          rw [new_internal_weight, nodeWeight_eq_weight tmp1, nodeWeight_eq_weight tmp2]
        have hsum1 := (perm1.map HuffTree.weight).sum_eq
        have hsum2 := (perm2.map HuffTree.weight).sum_eq
        simp only [List.map_cons, List.sum_cons] at hsum1 hsum2
        simp only [List.map_cons, List.sum_cons, e1]
        omega

/-- With enough fuel the loop performs exactly `q.length - 1` merges. -/
theorem merge_count_loop_spec (fuel : Nat) :
    ∀ q : List HuffTree, q.length ≤ fuel + 1 →
      merge_count_loop fuel q = q.length - 1 := by
  induction fuel with
  | zero =>
    intro q hlen
    have : merge_count_loop 0 q = 0 := rfl
    rw [this]
    omega
  | succ fuel ih =>
    intro q hlen
    cases hstep : merge_step q with
    | none =>
      have h1 := (merge_step_eq_none_iff q).mp hstep
      have : merge_count_loop (fuel + 1) q = 0 := by
        simp [merge_count_loop, hstep]
      rw [this]
      omega
    | some q2 =>
      have hl := merge_step_length q q2 hstep
      have hq1 := ((merge_step_eq_some_iff q q2).mp hstep).1
      have : merge_count_loop (fuel + 1) q = merge_count_loop fuel q2 + 1 := by
        simp [merge_count_loop, hstep]
      rw [this, ih q2 (by omega)]
      omega

/-- Row `a`'s bit pattern (of length `a.bits`) is a bit-prefix of row
`b`'s bit pattern (of length `b.bits`): `a` is no longer than `b` and
the leading `a.bits` bits of `b.code` equal `a.code`. -/
def rowPrefixOf (a b : HuffTableRow) : Prop :=
  a.bits ≤ b.bits ∧ b.code / 2 ^ (b.bits - a.bits) = a.code

instance (a b : HuffTableRow) : Decidable (rowPrefixOf a b) := by
  unfold rowPrefixOf
  infer_instance

/-- Neither of the two rows' bit patterns is a bit-prefix of the
other's. -/
def rowsDisjoint (a b : HuffTableRow) : Prop :=
  ¬ rowPrefixOf a b ∧ ¬ rowPrefixOf b a

/-- Every row emitted below an accumulator `(pattern, depth)` carries a
code that extends that accumulator: its leading `depth` bits are exactly
`pattern`. -/
theorem specAssignCodes_extends (node : HuffNode) :
    ∀ pattern depth : Nat, ∀ r ∈ specAssignCodes node pattern depth,
      depth ≤ r.bits ∧ r.code / 2 ^ (r.bits - depth) = pattern := by
  induction node with
  | Leaf e w =>
    intro pattern depth r hr
    simp only [specAssignCodes, List.mem_singleton] at hr
    subst hr
    simp
  | Internal w l rt ihl ihr =>
    intro pattern depth r hr
    simp only [specAssignCodes, List.mem_append] at hr
    rcases hr with hr | hr
    · obtain ⟨h1, h2⟩ := ihl (pattern * 2) (depth + 1) r hr
      refine ⟨by omega, ?_⟩
      have hsplit : r.bits - depth = (r.bits - (depth + 1)) + 1 := by omega
      rw [hsplit, pow_succ, ← Nat.div_div_eq_div_mul, h2]
      omega
    · obtain ⟨h1, h2⟩ := ihr (pattern * 2 + 1) (depth + 1) r hr
      refine ⟨by omega, ?_⟩
      have hsplit : r.bits - depth = (r.bits - (depth + 1)) + 1 := by omega
      rw [hsplit, pow_succ, ← Nat.div_div_eq_div_mul, h2]
      omega

/-- If the accumulator fits in its depth, every emitted code fits in
its bit count. -/
theorem specAssignCodes_code_lt (node : HuffNode) (pattern depth : Nat)
    (hp : pattern < 2 ^ depth) :
    ∀ r ∈ specAssignCodes node pattern depth, r.code < 2 ^ r.bits := by
  intro r hr
  obtain ⟨h1, h2⟩ := specAssignCodes_extends node pattern depth r hr
  have hd : 0 < 2 ^ (r.bits - depth) := Nat.pos_pow_of_pos _ (by omega)
  have hdiv := Nat.div_add_mod r.code (2 ^ (r.bits - depth))
  have hmod := Nat.mod_lt r.code hd
  have h3 : 2 ^ (r.bits - depth) * 2 ^ depth = 2 ^ r.bits := by
    rw [← pow_add]
    congr 1
    omega
  calc r.code
      = 2 ^ (r.bits - depth) * pattern + r.code % 2 ^ (r.bits - depth) := by
        rw [← h2, hdiv]
    _ < 2 ^ (r.bits - depth) * (pattern + 1) := by
        rw [Nat.mul_succ]
        omega
    _ ≤ 2 ^ (r.bits - depth) * 2 ^ depth := by
        exact Nat.mul_le_mul_left _ (by omega)
    _ = 2 ^ r.bits := h3

/-- The rows emitted below one accumulator are pairwise non-prefixes of
one another: left-subtree rows extend `pattern·2`, right-subtree rows
extend `pattern·2 + 1`, so any cross pair differs at the bit introduced
by the split. -/
theorem specAssignCodes_pairwise (node : HuffNode) :
    ∀ pattern depth : Nat,
      (specAssignCodes node pattern depth).Pairwise rowsDisjoint := by
  induction node with
  | Leaf e w =>
    intro pattern depth
    simp [specAssignCodes]
  | Internal w l rt ihl ihr =>
    intro pattern depth
    simp only [specAssignCodes]
    refine List.pairwise_append.mpr ⟨ihl _ _, ihr _ _, ?_⟩
    intro a ha b hb
    obtain ⟨ha1, ha2⟩ := specAssignCodes_extends l (pattern * 2) (depth + 1) a ha
    obtain ⟨hb1, hb2⟩ := specAssignCodes_extends rt (pattern * 2 + 1) (depth + 1) b hb
    constructor
    · rintro ⟨hle, hdiv⟩
      have hsplit : b.bits - (depth + 1) = (b.bits - a.bits) + (a.bits - (depth + 1)) := by
        omega
      have hcontra : b.code / 2 ^ (b.bits - (depth + 1)) = pattern * 2 := by
        rw [hsplit, pow_add, ← Nat.div_div_eq_div_mul, hdiv, ha2]
      rw [hb2] at hcontra
      omega
    · rintro ⟨hle, hdiv⟩
      have hsplit : a.bits - (depth + 1) = (a.bits - b.bits) + (b.bits - (depth + 1)) := by
        omega
      have hcontra : a.code / 2 ^ (a.bits - (depth + 1)) = pattern * 2 + 1 := by
        rw [hsplit, pow_add, ← Nat.div_div_eq_div_mul, hdiv, hb2]
      rw [ha2] at hcontra
      omega

theorem from_huff_tree_rows (t : HuffTree) :
    (HuffTable.from_huff_tree t).rows = specAssignCodes t.root 0 0 := by
  unfold HuffTable.from_huff_tree
  rw [traverse_tree_rows]
  simp [HuffTable.new]

theorem isLeaf_iff_kindRank (t : HuffTree) :
    t.root.isLeaf = true ↔ t.kindRank = 0 := by
  cases h : t.root <;> simp [HuffNode.isLeaf, HuffTree.kindRank, h]

theorem weight_new_leaf (c : Char) (w : Nat) :
    (HuffTree.new_leaf c w).weight = w := rfl

theorem consistent_new_leaf (c : Char) (w : Nat) :
    (HuffTree.new_leaf c w).root.consistent = true := rfl

/-- **C1.** For every non-empty input, the codes in the final table are
prefix-free: any two rows for distinct symbols are such that neither
row's bit pattern (of its stated bit-length) is a bit-prefix of the
other's. -/
theorem c1_final_table_prefix_free (entries : List (Char × Nat)) (t : HuffTree)
    (i j : Nat)
    (hne : entries ≠ [])
    (ht : build_huff_tree (build_priority_queue entries) = some t)
    (hi : i < (HuffTable.from_huff_tree t).rows.length)
    (hj : j < (HuffTable.from_huff_tree t).rows.length)
    (hchar : ((HuffTable.from_huff_tree t).rows.get ⟨i, hi⟩).char ≠
      ((HuffTable.from_huff_tree t).rows.get ⟨j, hj⟩).char) :
    rowsDisjoint ((HuffTable.from_huff_tree t).rows.get ⟨i, hi⟩)
      ((HuffTable.from_huff_tree t).rows.get ⟨j, hj⟩) := by
  have hpw : (HuffTable.from_huff_tree t).rows.Pairwise rowsDisjoint := by
    rw [from_huff_tree_rows]
    exact specAssignCodes_pairwise t.root 0 0
  have hij : i ≠ j := by
    intro h
    subst h
    exact hchar rfl
  rcases Nat.lt_or_ge i j with hlt | hge
  · exact List.pairwise_iff_get.mp hpw ⟨i, hi⟩ ⟨j, hj⟩ hlt
  · have hlt : j < i := by omega
    have hd := List.pairwise_iff_get.mp hpw ⟨j, hj⟩ ⟨i, hi⟩ hlt
    exact ⟨hd.2, hd.1⟩

/-- **C2.** Every `Internal` node of the tree built by the merge process
has weight equal to the sum of its two children's weights, and for every
non-empty input the final tree's root weight equals the sum of all input
frequencies. -/
theorem c2_internal_weights (entries : List (Char × Nat)) (t : HuffTree)
    (hne : entries ≠ [])
    (ht : build_huff_tree (build_priority_queue entries) = some t) :
    t.root.consistent = true ∧ t.weight = (entries.map Prod.snd).sum := by
  have hq : build_priority_queue entries ≠ [] := by
    simp [build_priority_queue, hne]
  obtain ⟨t2, h1, h2, h3⟩ :=
    build_loop_spec (build_priority_queue entries).length (build_priority_queue entries)
      (by omega) hq
      (by
        intro x hx
        simp only [build_priority_queue, List.mem_map] at hx
        obtain ⟨e, _, rfl⟩ := hx
        exact consistent_new_leaf e.1 e.2)
  have ht2 : t2 = t := by
    have : build_huff_tree (build_priority_queue entries) = some t2 := h1
    rw [ht] at this
    exact (Option.some_inj.mp this).symm
  subst ht2
  refine ⟨h2, ?_⟩
  rw [h3, build_priority_queue, List.map_map]
  congr 1

/-- **C3.** In every merge iteration, with `A` the first-extracted and
`B` the second-extracted node, the constructed `Internal` node has
weight `A.weight + B.weight`, its left child is the smaller-weight node
of the two, and on a weight tie `A` becomes the left child. -/
theorem c3_merge_iteration (q q2 rest1 rest2 : List HuffTree) (A B : HuffTree)
    (h : merge_step q = some q2)
    (h1 : popMin q = some (A, rest1))
    (h2 : popMin rest1 = some (B, rest2)) :
    q2 = HuffTree.new_internal A.root B.root :: rest2 ∧
      (HuffTree.new_internal A.root B.root).weight = A.weight + B.weight ∧
      (HuffTree.new_internal A.root B.root).root =
        HuffNode.Internal (A.weight + B.weight)
          (if A.weight ≤ B.weight then A.root else B.root)
          (if A.weight ≤ B.weight then B.root else A.root) := by
  obtain ⟨hlen, A2, rest1b, B2, rest2b, h1b, h2b, h3b⟩ :=
    (merge_step_eq_some_iff q q2).mp h
  rw [h1] at h1b
  have e1 := Option.some_inj.mp h1b
  have hA : A = A2 := congrArg Prod.fst e1
  have hr1 : rest1 = rest1b := congrArg Prod.snd e1
  subst hA
  subst hr1
  rw [h2] at h2b
  have e2 := Option.some_inj.mp h2b
  have hB : B = B2 := congrArg Prod.fst e2
  have hr2 : rest2 = rest2b := congrArg Prod.snd e2
  subst hB
  subst hr2
  refine ⟨h3b, ?_, ?_⟩
  · rw [new_internal_weight, nodeWeight_eq_weight A, nodeWeight_eq_weight B]
  · rw [new_internal_eq, nodeWeight_eq_weight A, nodeWeight_eq_weight B]

/-- **C4.** Extract-min returns a node of minimal total weight among all
nodes held, and when a `Leaf` and an `Internal` node are tied at that
minimal weight, a `Leaf` is returned before an `Internal` node. -/
theorem c4_extract_min_order (q rest : List HuffTree) (m x : HuffTree)
    (h : popMin q = some (m, rest)) (hx : x ∈ q) :
    m.weight ≤ x.weight ∧
      (x.weight = m.weight → x.root.isLeaf = true → m.root.isLeaf = true) := by
  refine ⟨popMin_weight_le q m rest h x hx, ?_⟩
  intro hw hxleaf
  have hmin := popMin_min q m rest h x hx
  rw [Ne, HuffTree.cmp_eq_gt_iff] at hmin
  rw [isLeaf_iff_kindRank] at hxleaf ⊢
  by_contra hml
  have hrm : m.kindRank = 1 := by
    unfold HuffTree.kindRank at hml ⊢
    cases hm : m.root with
    | Leaf c w => rw [hm] at hml; simp at hml
    | Internal w l r => rfl
  exact hmin (Or.inr ⟨hw.symm, by omega⟩)

/-- **C5.** The code-assignment step equals the reference pre-order
left-first traversal: the root starts with pattern `0` and depth `0`,
descending left yields pattern·2 and depth+1, descending right yields
pattern·2+1 and depth+1, each `Leaf` emits exactly one row carrying the
current pattern and depth, and rows appear in traversal order. -/
theorem c5_code_assignment_matches_spec :
    (∀ (node : HuffNode) (code bits : Nat) (table : HuffTable),
        HuffTable.traverse_tree node code bits table =
          ⟨table.rows ++ specAssignCodes node code bits⟩) ∧
      ∀ huff_tree : HuffTree,
        (HuffTable.from_huff_tree huff_tree).rows =
          specAssignCodes huff_tree.root 0 0 :=
  ⟨traverse_tree_rows, from_huff_tree_rows⟩

/-- **C6.** On empty input the frequency table and the queue are empty,
and `build_huff_tree` reaches `queue.pop().expect(..)` on an empty heap:
the function's return type has no empty case and the call panics, which
the model renders as `none` (contradicting the spec's demand for a
non-crash empty result). -/
theorem c6_empty_input_panics :
    generate_char_table [] = [] ∧
      build_priority_queue (generate_char_table []) = [] ∧
      build_huff_tree (build_priority_queue (generate_char_table [])) = none :=
  ⟨rfl, rfl, rfl⟩

/-- **C7 (counterexample).** For the single-symbol input with frequency
4 the pipeline produces exactly one row, and that row's bit-length is 0,
refuting the claim that the assigned code length is not 0 bits. -/
theorem c7_singleton_counterexample :
    build_huff_tree (build_priority_queue [('a', 4)]) =
        some (HuffTree.new_leaf 'a' 4) ∧
      (HuffTable.from_huff_tree (HuffTree.new_leaf 'a' 4)).rows =
        [⟨'a', 4, 0, 0⟩] ∧
      ¬ (∀ r ∈ (HuffTable.from_huff_tree (HuffTree.new_leaf 'a' 4)).rows,
          r.bits ≠ 0) := by
  refine ⟨rfl, rfl, ?_⟩
  intro hall
  exact hall ⟨'a', 4, 0, 0⟩ (by simp [from_huff_tree_rows, HuffTree.new_leaf, specAssignCodes]) rfl

/-- **C7 (amended).** For every input with exactly one distinct symbol,
exactly one row is produced, and its assigned code length is 0 bits
(the singleton tree is a lone `Leaf` and the traversal starts at
`bits = 0`). -/
theorem c7_singleton_zero_bits (c : Char) (w : Nat) :
    build_huff_tree (build_priority_queue [(c, w)]) =
        some (HuffTree.new_leaf c w) ∧
      (HuffTable.from_huff_tree (HuffTree.new_leaf c w)).rows = [⟨c, w, 0, 0⟩] :=
  ⟨rfl, rfl⟩

/-- **C8.** For a non-empty queue of `n` leaves, each iteration of the
merge loop shrinks the queue by exactly one element, and the loop
performs exactly `n - 1` merges. -/
theorem c8_merge_loop_count (q q1 q2 : List HuffTree)
    (hne : q ≠ [])
    (hleaves : ∀ x ∈ q, x.root.isLeaf = true)
    (hstep : merge_step q1 = some q2) :
    q2.length + 1 = q1.length ∧ merge_count q = q.length - 1 :=
  ⟨merge_step_length q1 q2 hstep, merge_count_loop_spec q.length q (by omega)⟩

/-- **C9.** `Display for HuffTable` does not render the rows: the
iterator built by `map` is discarded unconsumed, so formatting writes
nothing, while the specified rendering of a one-row table is
`symbol, frequency, code, bits`. -/
theorem c9_display_writes_nothing :
    HuffTable.fmt ⟨[⟨'a', 4, 0, 0⟩]⟩ "" = "" ∧
      specTableRendering ⟨[⟨'a', 4, 0, 0⟩]⟩ = "a, 4, 0, 0" ∧
      HuffTable.fmt ⟨[⟨'a', 4, 0, 0⟩]⟩ "" ≠
        specTableRendering ⟨[⟨'a', 4, 0, 0⟩]⟩ := by
  refine ⟨rfl, by decide, by decide⟩

/-- **C10.** Every row emitted by the traversal satisfies
`code < 2 ^ bits`: `traverse_tree` preserves the bound on its
accumulator at every recursive step, and `from_huff_tree` starts at
`code = 0`, `bits = 0`, so every row of every produced table satisfies
it. -/
theorem c10_code_fits_bits (node : HuffNode) (code bits : Nat)
    (table : HuffTable) (r s : HuffTableRow) (t : HuffTree)
    (hcode : code < 2 ^ bits)
    (htable : ∀ x ∈ table.rows, x.code < 2 ^ x.bits)
    (hr : r ∈ (HuffTable.traverse_tree node code bits table).rows)
    (hs : s ∈ (HuffTable.from_huff_tree t).rows) :
    r.code < 2 ^ r.bits ∧ s.code < 2 ^ s.bits := by
  constructor
  · rw [traverse_tree_rows] at hr
    simp only [List.mem_append] at hr
    rcases hr with hr | hr
    · exact htable r hr
    · exact specAssignCodes_code_lt node code bits hcode r hr
  · rw [from_huff_tree_rows] at hs
    exact specAssignCodes_code_lt t.root 0 0 (by norm_num) s hs

/-- Witness for C1 at the input `{a: 1, b: 2}`: the two produced rows
`(a, 0, 1 bit)` and `(b, 1, 1 bit)` are mutually non-prefixes. -/
theorem c1_final_table_prefix_free_witness :
    rowsDisjoint ⟨'a', 1, 0, 1⟩ ⟨'b', 2, 1, 1⟩ :=
  c1_final_table_prefix_free [('a', 1), ('b', 2)]
    ⟨HuffNode.Internal 3 (HuffNode.Leaf 'a' 1) (HuffNode.Leaf 'b' 2)⟩ 0 1
    (by decide) (by decide) (by decide) (by decide) (by decide)

/-- Witness for C2 at the input `{a: 1, b: 2}`: the final tree is
weight-consistent and its root weight is `1 + 2`. -/
theorem c2_internal_weights_witness :
    (⟨HuffNode.Internal 3 (HuffNode.Leaf 'a' 1) (HuffNode.Leaf 'b' 2)⟩ :
        HuffTree).root.consistent = true ∧
      (⟨HuffNode.Internal 3 (HuffNode.Leaf 'a' 1) (HuffNode.Leaf 'b' 2)⟩ :
        HuffTree).weight = ([('a', 1), ('b', 2)].map Prod.snd).sum :=
  c2_internal_weights [('a', 1), ('b', 2)]
    ⟨HuffNode.Internal 3 (HuffNode.Leaf 'a' 1) (HuffNode.Leaf 'b' 2)⟩
    (by decide) (by decide)

/-- Witness for C3 at the queue `[leaf a 1, leaf b 2]`: the first merge
combines the two leaves into `Internal 3` with the lighter leaf on the
left. -/
theorem c3_merge_iteration_witness :
    [HuffTree.new_internal (HuffTree.new_leaf 'a' 1).root (HuffTree.new_leaf 'b' 2).root] =
        HuffTree.new_internal (HuffTree.new_leaf 'a' 1).root
            (HuffTree.new_leaf 'b' 2).root :: ([] : List HuffTree) ∧
      (HuffTree.new_internal (HuffTree.new_leaf 'a' 1).root
          (HuffTree.new_leaf 'b' 2).root).weight =
        (HuffTree.new_leaf 'a' 1).weight + (HuffTree.new_leaf 'b' 2).weight ∧
      (HuffTree.new_internal (HuffTree.new_leaf 'a' 1).root
          (HuffTree.new_leaf 'b' 2).root).root =
        HuffNode.Internal
          ((HuffTree.new_leaf 'a' 1).weight + (HuffTree.new_leaf 'b' 2).weight)
          (if (HuffTree.new_leaf 'a' 1).weight ≤ (HuffTree.new_leaf 'b' 2).weight
            then (HuffTree.new_leaf 'a' 1).root else (HuffTree.new_leaf 'b' 2).root)
          (if (HuffTree.new_leaf 'a' 1).weight ≤ (HuffTree.new_leaf 'b' 2).weight
            then (HuffTree.new_leaf 'b' 2).root else (HuffTree.new_leaf 'a' 1).root) :=
  c3_merge_iteration [HuffTree.new_leaf 'a' 1, HuffTree.new_leaf 'b' 2]
    [HuffTree.new_internal (HuffTree.new_leaf 'a' 1).root (HuffTree.new_leaf 'b' 2).root]
    [HuffTree.new_leaf 'b' 2] []
    (HuffTree.new_leaf 'a' 1) (HuffTree.new_leaf 'b' 2)
    (by decide) (by decide) (by decide)

/-- Witness for C4 at a queue holding an `Internal` node of weight 2 and
a `Leaf` of weight 2: the extracted node has minimal weight, and since a
`Leaf` ties at that weight the extracted node is that `Leaf`. -/
theorem c4_extract_min_order_witness :
    (HuffTree.new_leaf 'c' 2).weight ≤
        (⟨HuffNode.Internal 2 (HuffNode.Leaf 'a' 1) (HuffNode.Leaf 'b' 1)⟩ :
          HuffTree).weight ∧
      ((⟨HuffNode.Internal 2 (HuffNode.Leaf 'a' 1) (HuffNode.Leaf 'b' 1)⟩ :
            HuffTree).weight = (HuffTree.new_leaf 'c' 2).weight →
        (⟨HuffNode.Internal 2 (HuffNode.Leaf 'a' 1) (HuffNode.Leaf 'b' 1)⟩ :
            HuffTree).root.isLeaf = true →
        (HuffTree.new_leaf 'c' 2).root.isLeaf = true) :=
  c4_extract_min_order
    [⟨HuffNode.Internal 2 (HuffNode.Leaf 'a' 1) (HuffNode.Leaf 'b' 1)⟩,
      HuffTree.new_leaf 'c' 2]
    [⟨HuffNode.Internal 2 (HuffNode.Leaf 'a' 1) (HuffNode.Leaf 'b' 1)⟩]
    (HuffTree.new_leaf 'c' 2)
    ⟨HuffNode.Internal 2 (HuffNode.Leaf 'a' 1) (HuffNode.Leaf 'b' 1)⟩
    (by decide) (by decide)

/-- Witness for C8 at a queue of three leaves: one merge step shrinks it
from 3 to 2 elements, and the loop performs exactly 2 merges. -/
theorem c8_merge_loop_count_witness :
    [(⟨HuffNode.Internal 3 (HuffNode.Leaf 'a' 1) (HuffNode.Leaf 'b' 2)⟩ : HuffTree),
        HuffTree.new_leaf 'c' 4].length + 1 =
      [HuffTree.new_leaf 'a' 1, HuffTree.new_leaf 'b' 2,
        HuffTree.new_leaf 'c' 4].length ∧
      merge_count [HuffTree.new_leaf 'a' 1, HuffTree.new_leaf 'b' 2,
          HuffTree.new_leaf 'c' 4] =
        [HuffTree.new_leaf 'a' 1, HuffTree.new_leaf 'b' 2,
          HuffTree.new_leaf 'c' 4].length - 1 :=
  c8_merge_loop_count
    [HuffTree.new_leaf 'a' 1, HuffTree.new_leaf 'b' 2, HuffTree.new_leaf 'c' 4]
    [HuffTree.new_leaf 'a' 1, HuffTree.new_leaf 'b' 2, HuffTree.new_leaf 'c' 4]
    [⟨HuffNode.Internal 3 (HuffNode.Leaf 'a' 1) (HuffNode.Leaf 'b' 2)⟩,
      HuffTree.new_leaf 'c' 4]
    (by decide) (by decide) (by decide)

/-- Witness for C10 at the subtree `{a: 1, b: 2}` entered with
accumulator `(code 1, 1 bit)`: the emitted row `(a, code 2, 2 bits)`
and the top-level row `(a, code 0, 1 bit)` both fit their stated
bit-lengths. -/
theorem c10_code_fits_bits_witness :
    (⟨'a', 1, 2, 2⟩ : HuffTableRow).code < 2 ^ (⟨'a', 1, 2, 2⟩ : HuffTableRow).bits ∧
      (⟨'a', 1, 0, 1⟩ : HuffTableRow).code <
        2 ^ (⟨'a', 1, 0, 1⟩ : HuffTableRow).bits :=
  c10_code_fits_bits
    (HuffNode.Internal 3 (HuffNode.Leaf 'a' 1) (HuffNode.Leaf 'b' 2)) 1 1
    ⟨[]⟩ ⟨'a', 1, 2, 2⟩ ⟨'a', 1, 0, 1⟩
    ⟨HuffNode.Internal 3 (HuffNode.Leaf 'a' 1) (HuffNode.Leaf 'b' 2)⟩
    (by decide) (by decide) (by decide) (by decide)

end HuffmanRs
